import Mathlib

/-!
Verification of the Flask-FlatPages page cache and query engine
(`flask_flatpages/__init__.py`, `flask_flatpages/filters.py`).

The development is a shallow embedding of the Python source:
  * Python values that can appear as decoded YAML metadata are modelled by
    `BVal` (scalars) and `Val` (scalars or lists of scalars); a decoded YAML
    document is a `Yaml` (scalar, sequence, or mapping).  The YAML decoder
    itself (`yaml.safe_load`) is an external collaborator and is passed in
    as an opaque function `String → Yaml`.
  * `Page` stores exactly what `Page.__init__` stores for the claims at
    hand: the logical path, the raw metadata block and the body.  The
    renderer/context fields are opaque external collaborators and carry no
    information relevant to any claim, so they are omitted.
  * `Page.meta` embeds the `meta` cached property.
  * `FlatPages._parse`, `FlatPages._load_file`, `FlatPages._pages` and
    `FlatPages.reload` embed the collection build.  The filesystem is
    modelled as the enumeration sequence produced by the recursive `_walk`
    (a list of files, each with its directory segments, name, content and
    modification time), mirroring the spec's remark that the walk order is
    just the filesystem enumeration order.
  * `PageList.filter` and `PageList.order_by` embed the query layer.  The
    query layer accesses pages only through `__getattr__`, i.e. through
    `page.meta.get(name)`, so it is embedded over `QPage`: a page together
    with its (successfully decoded) metadata mapping.
-/

namespace FlaskFlatPages

instance {ε α : Type} [DecidableEq ε] [DecidableEq α] : DecidableEq (Except ε α) :=
  fun x y =>
    match x, y with
    | .ok a, .ok b =>
        decidable_of_iff (a = b) ⟨fun h => by rw [h], fun h => by injection h⟩
    | .error e, .error f =>
        decidable_of_iff (e = f) ⟨fun h => by rw [h], fun h => by injection h⟩
    | .ok _, .error _ => isFalse (fun h => by injection h)
    | .error _, .ok _ => isFalse (fun h => by injection h)

/-! ## Python value model -/

/-- Base (scalar) Python values appearing as metadata: `None`, booleans,
integers, strings and dates.  Dates are represented by their ordinal as a
natural number; `datetime.date(datetime.MINYEAR, 1, 1)` is the least date,
represented by `0`. -/
inductive BVal where
  | none
  | bool (b : Bool)
  | int (n : Int)
  | str (s : String)
  | date (d : Nat)
deriving DecidableEq

/-- A metadata field value: a scalar or a (flat) list of scalars. -/
inductive Val where
  | base (b : BVal)
  | list (l : List BVal)
deriving DecidableEq

/-- A decoded YAML document: a scalar, a sequence, or a mapping from string
keys to field values. -/
inductive Yaml where
  | scalar (b : BVal)
  | seq (l : List Val)
  | map (m : List (String × Val))
deriving DecidableEq

/-- Python truthiness of a base value. -/
def BVal.truthy : BVal → Bool
  | .none => false
  | .bool b => b
  | .int n => n != 0
  | .str s => s != ""
  | .date _ => true

/-- Python truthiness of a field value. -/
def Val.truthy : Val → Bool
  | .base b => b.truthy
  | .list l => l != []

/-- Python truthiness of a decoded YAML document (`not meta` in the source
is the negation of this). -/
def Yaml.truthy : Yaml → Bool
  | .scalar b => b.truthy
  | .seq l => l != []
  | .map m => m != []

/-- `type(meta).__name__` for a decoded YAML document (Python 2 names;
strings decode to `str`). -/
def Yaml.typeName : Yaml → String
  | .scalar .none => "NoneType"
  | .scalar (.bool _) => "bool"
  | .scalar (.int _) => "int"
  | .scalar (.str _) => "str"
  | .scalar (.date _) => "date"
  | .seq _ => "list"
  | .map _ => "dict"

/-- Python `==` on base values.  Python's numeric cross-type equality
`True == 1` / `False == 0` is modelled; other scalars compare
structurally. -/
def pyEqB : BVal → BVal → Bool
  | .bool b, .int n => if b then n == 1 else n == 0
  | .int n, .bool b => if b then n == 1 else n == 0
  | a, b => a == b

/-- Python `==` on field values (lists compare elementwise). -/
def pyEqV : Val → Val → Bool
  | .base a, .base b => pyEqB a b
  | .list a, .list b =>
      a.length == b.length && (a.zip b).all (fun p => pyEqB p.1 p.2)
  | _, _ => false

/-! ## Association lists (Python `dict` as used by the source) -/

/-- `dict.get`-style lookup. -/
def lookupA {β : Type} : List (String × β) → String → Option β
  | [], _ => Option.none
  | (k, v) :: rest, key => if k = key then some v else lookupA rest key

/-- `dict.__setitem__`: replace the value at an existing key in place, or
append a fresh key. -/
def insertA {β : Type} : List (String × β) → String → β → List (String × β)
  | [], key, v => [(key, v)]
  | (k, w) :: rest, key, v =>
      if k = key then (k, v) :: rest else (k, w) :: insertA rest key v

theorem lookupA_insertA_self {β : Type} (m : List (String × β)) (k : String) (v : β) :
    lookupA (insertA m k v) k = some v := by
  induction m with
  | nil => simp [insertA, lookupA]
  | cons hd tl ih =>
      obtain ⟨k0, w0⟩ := hd
      by_cases h : k0 = k
      · simp [insertA, lookupA, h]
      · simp [insertA, lookupA, h, ih]

theorem lookupA_insertA_ne {β : Type} (m : List (String × β)) (k k' : String) (v : β)
    (h : k' ≠ k) : lookupA (insertA m k v) k' = lookupA m k' := by
  have h' : ¬ (k = k') := fun hh => h hh.symm
  induction m with
  | nil => simp [insertA, lookupA, h']
  | cons hd tl ih =>
      obtain ⟨k0, w0⟩ := hd
      by_cases h0 : k0 = k
      · subst h0
        simp [insertA, lookupA, h']
      · by_cases h1 : k0 = k'
        · simp [insertA, lookupA, h0, h1, h]
        · simp [insertA, lookupA, h0, h1, ih]

/-! ## Page and its metadata property (`Page.meta` in the source) -/

/-- `Page.__init__` stores the logical path, the raw metadata block
(`_meta_yaml`) and the body.  The renderer and context arguments are opaque
external collaborators and are omitted. -/
structure Page where
  path : String
  meta_yaml : String
  body : String
deriving DecidableEq

/-- The `ValueError` message built by `Page.meta` (the typo "Excpected" is
the source's). -/
def metaErrMsg (path typeName : String) : String :=
  "Excpected a dict in metadata for '" ++ path ++ "', got " ++ typeName

/-- The `meta` cached property: decode `_meta_yaml` with the (opaque,
externally supplied) YAML decoder; a falsy decoded document yields `{}`, a
non-`dict` truthy document raises `ValueError`, a `dict` is returned. -/
def Page.meta (decode : String → Yaml) (p : Page) :
    Except String (List (String × Val)) :=
  let m := decode p.meta_yaml
  if !m.truthy then .ok []
  else
    match m with
    | .map kvs => .ok kvs
    | other => .error (metaErrMsg p.path other.typeName)

/-! ## `FlatPages._parse`: splitting a raw file into metadata block and body

Python's `string.split(u'\n')` is embedded as `splitNl` on character lists,
`u'\n'.join(...)` as `joinNl`.  A line is "blank" when `unicode.strip`
leaves nothing, i.e. when all of its characters are whitespace. -/

/-- Python `text.split('\n')`. -/
def splitNl : List Char → List (List Char)
  | [] => [[]]
  | c :: cs =>
      if c = '\n' then [] :: splitNl cs
      else
        match splitNl cs with
        | [] => [[c]]
        | l :: ls => (c :: l) :: ls

/-- Python `'\n'.join(lines)`. -/
def joinNl : List (List Char) → List Char
  | [] => []
  | [l] => l
  | l :: ls => l ++ '\n' :: joinNl ls

/-- A line is blank when `unicode.strip` returns a falsy (empty) string. -/
def blankLine (l : List Char) : Bool := l.all Char.isWhitespace

theorem splitNl_ne_nil (cs : List Char) : splitNl cs ≠ [] := by
  cases cs with
  | nil => simp [splitNl]
  | cons c cs =>
      by_cases h : c = '\n'
      · simp [splitNl, h]
      · simp only [splitNl, if_neg h]
        cases splitNl cs <;> simp

theorem joinNl_cons (l : List Char) (ls : List (List Char)) (h : ls ≠ []) :
    joinNl (l :: ls) = l ++ '\n' :: joinNl ls := by
  cases ls with
  | nil => exact absurd rfl h
  | cons a as => rfl

theorem joinNl_splitNl (cs : List Char) : joinNl (splitNl cs) = cs := by
  induction cs with
  | nil => simp [splitNl, joinNl]
  | cons c cs ih =>
      by_cases h : c = '\n'
      · subst h
        rw [show splitNl ('\n' :: cs) = [] :: splitNl cs by simp [splitNl]]
        rw [joinNl_cons _ _ (splitNl_ne_nil cs), ih]
        rfl
      · simp only [splitNl, if_neg h]
        cases hs : splitNl cs with
        | nil => exact absurd hs (splitNl_ne_nil cs)
        | cons l ls =>
            cases ls with
            | nil =>
                simp only [joinNl]
                rw [hs] at ih
                simp only [joinNl] at ih
                rw [ih]
            | cons a as =>
                rw [joinNl_cons _ _ (by simp)]
                rw [hs] at ih
                rw [joinNl_cons _ _ (by simp)] at ih
                simp [ih]

/-- `FlatPages._parse(string, path)`: lines up to the first blank line form
the metadata block (the blank line itself is consumed), the rest is the
body.  The renderer configuration the source also passes to `Page` is
opaque and omitted. -/
def FlatPages._parse (string path : String) : Page :=
  let ls := splitNl string.data
  let meta := joinNl (ls.takeWhile (fun l => !blankLine l))
  let content := joinNl ((ls.dropWhile (fun l => !blankLine l)).drop 1)
  { path := path, meta_yaml := String.mk meta, body := String.mk content }

/-! ## `FlatPages._load_file` and the file cache

`self._file_cache` is a dict `filename -> (page, mtime)`.  The filesystem
content and modification time observed for `filename` are passed in (the
model's stand-in for `os.path.getmtime` and `open(filename).read()`); the
returned `Bool` records whether the file content was read (the
"instrumented file source" of the spec's cache-hit property). -/

abbrev FileCache := List (String × (Page × Nat))

def FlatPages._load_file (cache : FileCache) (path filename content : String)
    (mtime : Nat) : Page × FileCache × Bool :=
  match lookupA cache filename with
  | some (pg, mt) =>
      if mt = mtime then (pg, cache, false)
      else
        let page := FlatPages._parse content path
        (page, insertA cache filename (page, mtime), true)
  | none =>
      let page := FlatPages._parse content path
      (page, insertA cache filename (page, mtime), true)

/-! ## `FlatPages._pages`: the directory walk

The recursive `_walk` enumerates, in filesystem order, every file under the
root together with the directory segments leading to it; the filesystem is
modelled as that enumeration sequence.  A file participates when its name
ends with the configured extension; its logical path is the `/`-joined
segment sequence with the extension stripped. -/

structure FSFile where
  /-- Directory names from the root down to the file's directory. -/
  dirsegs : List String
  name : String
  content : String
  mtime : Nat
deriving DecidableEq

abbrev FileSystem := List FSFile

/-- `'/'.join` over character lists (kernel-reducible replacement for the
built-in `String.intercalate`). -/
def joinSeg : List (List Char) → List Char
  | [] => []
  | [l] => l
  | l :: ls => l ++ '/' :: joinSeg ls

/-- `'/'.join(parts)` for `String`s. -/
def joinSlash (parts : List String) : String :=
  String.mk (joinSeg (parts.map String.data))

/-- Python `name.endswith(ext)` (suffix test, on character lists). -/
def endsWithB (name ext : String) : Bool :=
  strStartsR name.data.reverse ext.data.reverse
where
  /-- Does the first list start with the second? -/
  strStartsR : List Char → List Char → Bool
    | _, [] => true
    | [], _ :: _ => false
    | a :: as, b :: bs => a == b && strStartsR as bs

/-- `os.path.join(root, seg₁, …, segₙ, name)`. -/
def fullName (root : String) (f : FSFile) : String :=
  joinSlash (root :: (f.dirsegs ++ [f.name]))

/-- Python `name[:-len(extension)]` (for `len(extension) = 0` this is the
empty string, not `name`). -/
def nameNoExt (ext name : String) : String :=
  if ext.data.length = 0 then ""
  else String.mk (name.data.take (name.data.length - ext.data.length))

/-- The logical path of a file, when its name ends with the extension. -/
def logicalPath (ext : String) (f : FSFile) : Option String :=
  if endsWithB f.name ext then
    some (joinSlash (f.dirsegs ++ [nameNoExt ext f.name]))
  else Option.none

abbrev PagesMap := List (String × Page)

/-- One step of the walk: skip non-matching names, otherwise load through
the file cache and insert under the logical path (overwriting an earlier
entry for the same path).  Alongside the built mapping and the updated
cache, the accumulator collects the filenames whose content was read. -/
def pagesStep (ext root : String) (acc : PagesMap × FileCache × List String)
    (f : FSFile) : PagesMap × FileCache × List String :=
  match logicalPath ext f with
  | Option.none => acc
  | some path =>
      let fname := fullName root f
      let r := FlatPages._load_file acc.2.1 path fname f.content f.mtime
      (insertA acc.1 path r.1, r.2.1, acc.2.2 ++ if r.2.2 then [fname] else [])

/-- `FlatPages._pages`: walk the filesystem and build the path → page
mapping, threading the file cache. -/
def FlatPages._pages (ext root : String) (fs : FileSystem) (cache : FileCache) :
    PagesMap × FileCache × List String :=
  fs.foldl (pagesStep ext root) ([], cache, [])

/-! ## The collection object: lazy build and `reload` -/

/-- The mutable state of a `FlatPages` instance: the memoized `_pages`
mapping (absent until first access, as with `werkzeug.cached_property`) and
the file cache. -/
structure FlatPagesState where
  _pages : Option PagesMap
  _file_cache : FileCache
deriving DecidableEq

/-- `FlatPages.reload`: forget the built mapping (`del self.__dict__['_pages']`);
the file cache is untouched. -/
def FlatPages.reload (s : FlatPagesState) : FlatPagesState :=
  { s with _pages := Option.none }

/-- Accessing the `_pages` property: return the memoized mapping if present,
otherwise walk the (current) filesystem, memoize the result and record which
filenames were read. -/
def FlatPages.getPages (ext root : String) (fs : FileSystem)
    (s : FlatPagesState) : PagesMap × FlatPagesState × List String :=
  match s._pages with
  | some m => (m, s, [])
  | Option.none =>
      let r := FlatPages._pages ext root fs s._file_cache
      (r.1, { _pages := some r.1, _file_cache := r.2.1 }, r.2.2)

/-! ## The query layer: pages as seen by `PageList`

`PageList.filter` and `PageList.order_by` access a page only through
`page.meta` and `Page.__getattr__` (which returns `self.meta.get(name)`).
A page whose metadata block fails to decode raises on that first access and
never reaches the predicate logic, so the query layer is embedded over
`QPage`: a page together with its successfully decoded metadata mapping.
(Real attribute names such as `path` or `body` shadow `__getattr__`; the
claims only ever filter on metadata field names, which is what is
modelled.) -/

structure QPage where
  path : String
  meta : List (String × Val)
deriving DecidableEq

/-- `Page.__getattr__`: `self.meta.get(name)`, `None` when absent. -/
def qgetattr (p : QPage) (field : String) : Val :=
  (lookupA p.meta field).getD (Val.base BVal.none)

/-! ### String helpers for the predicates -/

/-- Python `str.lower()`. -/
def pyLower (s : String) : String := String.mk (s.data.map Char.toLower)

/-- Does `hay` start with `needle`? -/
def strStarts : List Char → List Char → Bool
  | [], _ => true
  | _ :: _, [] => false
  | a :: as, b :: bs => a == b && strStarts as bs

/-- Python `needle in hay` on strings (substring test). -/
def strHas (needle : List Char) : List Char → Bool
  | [] => strStarts needle []
  | c :: t => strStarts needle (c :: t) || strHas needle t

/-- `needle in hay` for `String`s. -/
def hasSubstr (hay needle : String) : Bool := strHas needle.data hay.data

/-! ### The predicate functions of `flask_flatpages/filters.py`

Each returns `Except PyErr Bool`: `.error` models an exception escaping the
function (`PageList.filter` catches `AttributeError` and `TypeError` and
re-raises them as `ValueError("Unknown operator …")`). -/

inductive PyErr where
  | attributeError
  | typeError
deriving DecidableEq

namespace filters

/-- `exact(page, field, value)`: `getattr(page, field) == value`. -/
def exact (p : QPage) (field : String) (value : Val) : Except PyErr Bool :=
  .ok (pyEqV (qgetattr p field) value)

/-- `isnull(page, field, value)`: `(getattr(page, field) == None) == value`. -/
def isnull (p : QPage) (field : String) (value : Val) : Except PyErr Bool :=
  .ok (pyEqV (Val.base (BVal.bool (qgetattr p field == Val.base BVal.none))) value)

/-- `contains(page, field, value)`: `value in (getattr(page, field) or [])`.
A falsy field gives the empty sequence; membership in a string is a
substring test requiring a string value (`TypeError` otherwise); iterating
a truthy non-sequence raises `TypeError`. -/
def contains (p : QPage) (field : String) (value : Val) : Except PyErr Bool :=
  let f := qgetattr p field
  if !f.truthy then .ok false
  else
    match f with
    | .base (.str s) =>
        match value with
        | .base (.str v) => .ok (hasSubstr s v)
        | _ => .error .typeError
    | .list l =>
        match value with
        | .base b => .ok (l.any (fun e => pyEqB e b))
        | .list _ => .ok false
    | .base _ => .error .typeError

/-- `in_(page, field, value)`: `getattr(page, field) in (value or [])`. -/
def in_ (p : QPage) (field : String) (value : Val) : Except PyErr Bool :=
  let f := qgetattr p field
  if !value.truthy then .ok false
  else
    match value with
    | .base (.str v) =>
        match f with
        | .base (.str s) => .ok (hasSubstr v s)
        | _ => .error .typeError
    | .list l =>
        match f with
        | .base b => .ok (l.any (fun e => pyEqB e b))
        | .list _ => .ok false
    | .base _ => .error .typeError

/-- `iexact(page, field, value)`: lowered equality inside
`try: … except AttributeError: return False` — any non-string operand makes
it `False`, never an error. -/
def iexact (p : QPage) (field : String) (value : Val) : Except PyErr Bool :=
  match qgetattr p field, value with
  | .base (.str s), .base (.str v) => .ok (pyLower s == pyLower v)
  | _, _ => .ok false

/-- Membership scan of `value.lower() in (val.lower() for val in elems)`:
Python's `in` advances the generator element by element, so a non-string
element raises `AttributeError` only if reached before a match. -/
def icontainsScan (lv : String) : List BVal → Except PyErr Bool
  | [] => .ok false
  | .str s :: rest =>
      if pyLower s == lv then .ok true else icontainsScan lv rest
  | _ :: _ => .error .attributeError

/-- The body of `icontains` before its `except AttributeError` clause. -/
def icontainsBody (p : QPage) (field : String) (value : Val) : Except PyErr Bool :=
  match qgetattr p field with
  | .base (.str s) =>
      match value with
      | .base (.str v) => .ok (hasSubstr (pyLower s) (pyLower v))
      | _ => .error .attributeError
  | f =>
      match value with
      | .base (.str v) =>
          -- `value.lower() in (val.lower() for val in (getattr(page, field) or []))`
          if !f.truthy then .ok false
          else
            match f with
            | .list l => icontainsScan (pyLower v) l
            | .base _ => .error .typeError
      | _ => .error .attributeError

/-- `icontains(page, field, value)`: case-insensitive containment; its own
`except AttributeError` turns `AttributeError` into `False`, while
`TypeError` (iterating a truthy non-sequence) escapes. -/
def icontains (p : QPage) (field : String) (value : Val) : Except PyErr Bool :=
  match icontainsBody p field value with
  | .error .attributeError => .ok false
  | r => r

end filters

/-! ## `PageList.filter` -/

/-- Python `field.split('__', 1)`: split at the first occurrence of `"__"`,
`none` when absent. -/
def splitDunder : List Char → Option (List Char × List Char)
  | '_' :: '_' :: tail => some ([], tail)
  | c :: rest => (splitDunder rest).map (fun pr => (c :: pr.1, pr.2))
  | [] => Option.none

/-- Building `_filters` from the keyword arguments: a missing `"__"` means
operator `exact`; the reserved word `in` is rewritten to `in_`. -/
def parseFilters (kwargs : List (String × Val)) : List (String × String × Val) :=
  kwargs.map (fun kv =>
    match splitDunder kv.1.data with
    | Option.none => (kv.1, "exact", kv.2)
    | some pr =>
        let cond := String.mk pr.2
        (String.mk pr.1, if cond = "in" then "in_" else cond, kv.2))

/-- `getattr(filters, cond)(page, field, val)`: dispatch by operator name;
an unknown name raises `AttributeError` at the `getattr`. -/
def applyOp (cond : String) (p : QPage) (field : String) (value : Val) :
    Except PyErr Bool :=
  match cond with
  | "exact" => filters.exact p field value
  | "isnull" => filters.isnull p field value
  | "contains" => filters.contains p field value
  | "in_" => filters.in_ p field value
  | "iexact" => filters.iexact p field value
  | "icontains" => filters.icontains p field value
  | _ => .error .attributeError

/-- The inner loop of `PageList.filter` for one page: evaluate each parsed
predicate; `AttributeError`/`TypeError` become
`ValueError("Unknown operator '<cond>'")`; a (possibly negated) `True`
appends the page unless already present. -/
def filterInner (negate : Bool) (page : QPage) (facc : List QPage) :
    List (String × String × Val) → Except String (List QPage)
  | [] => .ok facc
  | (field, cond, value) :: rest =>
      match applyOp cond page field value with
      | .error _ => .error ("Unknown operator '" ++ cond ++ "'")
      | .ok r =>
          let r := if negate then !r else r
          let facc := if r && !(decide (page ∈ facc)) then facc ++ [page] else facc
          filterInner negate page facc rest

/-- The outer loop of `PageList.filter` over the input pages. -/
def filterOuter (negate : Bool) (fs : List (String × String × Val))
    (facc : List QPage) : List QPage → Except String (List QPage)
  | [] => .ok facc
  | p :: ps =>
      match filterInner negate p facc fs with
      | .error e => .error e
      | .ok facc => filterOuter negate fs facc ps

/-- `PageList.filter(negate=…, **kwargs)`. -/
def PageList.filter (pages : List QPage) (negate : Bool)
    (kwargs : List (String × Val)) : Except String (List QPage) :=
  filterOuter negate (parseFilters kwargs) [] pages

/-! ## `PageList.order_by`

Python's `sorted(key=…, reverse=…)` is a stable sort; with `reverse=True`
it is the stable sort for the flipped strict comparison (equal keys keep
their original relative order in both directions).  It is embedded as a
stable insertion sort `pySort lt`, where `lt a b` means "`a` must come
strictly before `b`". -/

/-- Stable insertion: place `x` after every element strictly before it. -/
def pyInsert {α : Type} (lt : α → α → Bool) (x : α) : List α → List α
  | [] => [x]
  | y :: ys => if lt y x then y :: pyInsert lt x ys else x :: y :: ys

/-- Stable sort: `pySort lt [a, b, …]` inserts earlier input elements into
the sorted tail, so equal elements keep their input order. -/
def pySort {α : Type} (lt : α → α → Bool) : List α → List α
  | [] => []
  | x :: xs => pyInsert lt x (pySort lt xs)

/-- `PageList.MINDATE = datetime.date(datetime.MINYEAR, 1, 1)`, the least
representable date. -/
def MINDATE : Val := Val.base (BVal.date 0)

/-- The comparison `sorted` performs on key values.  The source compares
dates (`order_by` "naively works only with dates"); the model defines the
order on dates and leaves every other comparison `False`. -/
def ltVal : Val → Val → Bool
  | .base (.date a), .base (.date b) => decide (a < b)
  | _, _ => false

/-- `key[0] == '-'` / `key = key[1:]`: split off the descending marker.
(Python raises `IndexError` on an empty key; the claims only apply
`order_by` to non-empty field names.) -/
def dashKey (key : String) : Bool × String :=
  match key.data with
  | '-' :: rest => (true, String.mk rest)
  | _ => (false, key)

/-- `get_meta` inside `order_by`: `page[key] if key in page.meta else MINDATE`. -/
def getMetaKey (k : String) (p : QPage) : Val :=
  match lookupA p.meta k with
  | some v => v
  | Option.none => MINDATE

/-- `PageList.order_by(key)`. -/
def PageList.order_by (pages : List QPage) (key : String) : List QPage :=
  let rk := dashKey key
  let g := getMetaKey rk.2
  pySort (fun a b => if rk.1 then ltVal (g b) (g a) else ltVal (g a) (g b)) pages

/-- Proof-side key extraction: the date stored at field `k`, the `MINDATE`
ordinal `0` when the field is absent (meaningful under the hypotheses of
the ordering claims, which confine field values to dates). -/
def dateKey (k : String) (p : QPage) : Nat :=
  match lookupA p.meta k with
  | some (Val.base (BVal.date d)) => d
  | _ => 0

/-! ## Lemmas about `PageList.filter` -/

/-- The effective per-predicate test of the page loop: the predicate's
result, inverted when `negate` is set (`False` on an escaping exception,
which the combination lemmas exclude by hypothesis). -/
def effMatch (negate : Bool) (p : QPage) (t : String × String × Val) : Bool :=
  match applyOp t.2.1 p t.1 t.2.2 with
  | .ok r => if negate then !r else r
  | .error _ => false

theorem filterInner_eq (neg : Bool) (p : QPage) (facc : List QPage)
    (fs : List (String × String × Val))
    (hok : ∀ t ∈ fs, ∃ b, applyOp t.2.1 p t.1 t.2.2 = Except.ok b) :
    filterInner neg p facc fs =
      Except.ok (if fs.any (effMatch neg p) && !(decide (p ∈ facc))
                 then facc ++ [p] else facc) := by
  induction fs generalizing facc with
  | nil => simp [filterInner]
  | cons t rest ih =>
      obtain ⟨field, cond, value⟩ := t
      obtain ⟨b, hb⟩ := hok _ (List.mem_cons_self _ _)
      have hrest : ∀ t ∈ rest, ∃ b, applyOp t.2.1 p t.1 t.2.2 = Except.ok b :=
        fun t ht => hok t (List.mem_cons_of_mem _ ht)
      have heff : effMatch neg p (field, cond, value) = (if neg then !b else b) := by
        simp [effMatch, hb]
      simp only [filterInner, hb]
      cases hq : (if neg = true then !b else b) with
      | false =>
          rw [if_neg (by simp [hq])]
          rw [ih facc hrest]
          rw [List.any_cons, heff, hq, Bool.false_or]
      | true =>
          by_cases hin : p ∈ facc
          · rw [if_neg (by simp [hin])]
            rw [ih facc hrest]
            rw [List.any_cons, heff, hq]
            simp [hin]
          · rw [if_pos (by simp [hq, hin])]
            rw [ih _ hrest]
            rw [List.any_cons, heff, hq]
            simp [hin]

theorem filterOuter_eq (neg : Bool) (fs : List (String × String × Val))
    (pages : List QPage) (facc : List QPage)
    (hnd : pages.Nodup)
    (hok : ∀ p ∈ pages, ∀ t ∈ fs, ∃ b, applyOp t.2.1 p t.1 t.2.2 = Except.ok b)
    (hdisj : ∀ p ∈ pages, p ∉ facc) :
    filterOuter neg fs facc pages =
      Except.ok (facc ++ pages.filter (fun p => fs.any (effMatch neg p))) := by
  induction pages generalizing facc with
  | nil => simp [filterOuter]
  | cons p ps ih =>
      have hpf : p ∉ facc := hdisj p (List.mem_cons_self _ _)
      have hpsnd : ps.Nodup := (List.nodup_cons.mp hnd).2
      have hpns : p ∉ ps := (List.nodup_cons.mp hnd).1
      simp only [filterOuter]
      rw [filterInner_eq neg p facc fs (hok p (List.mem_cons_self _ _))]
      simp only [hpf, decide_False, Bool.not_false, Bool.and_true]
      by_cases hm : fs.any (effMatch neg p) = true
      · rw [if_pos hm]
        rw [ih (facc ++ [p]) hpsnd
              (fun q hq t ht => hok q (List.mem_cons_of_mem _ hq) t ht)
              (fun q hq => by
                intro hmem
                rcases List.mem_append.mp hmem with h | h
                · exact hdisj q (List.mem_cons_of_mem _ hq) h
                · rw [List.mem_singleton] at h
                  subst h
                  exact hpns hq)]
        simp [List.filter_cons, hm]
      · rw [if_neg hm]
        rw [ih facc hpsnd
              (fun q hq t ht => hok q (List.mem_cons_of_mem _ hq) t ht)
              (fun q hq => hdisj q (List.mem_cons_of_mem _ hq))]
        simp only [List.filter_cons]
        rw [Bool.not_eq_true] at hm
        simp [hm]

/-- C10: `filter` with zero predicates returns the empty list, whatever
`negate` is. -/
theorem C10_filter_empty_kwargs (pages : List QPage) (negate : Bool) :
    PageList.filter pages negate [] = Except.ok [] := by
  induction pages with
  | nil => rfl
  | cons p ps ih =>
      simpa [PageList.filter, parseFilters, filterOuter, filterInner] using ih

/-- C1: with at least one predicate and no predicate raising, `filter`
keeps exactly the pages matching at least one predicate (OR combination),
in input order, each exactly once. -/
theorem C1_filter_or (pages : List QPage) (kwargs : List (String × Val))
    (hnd : pages.Nodup) (hne : kwargs ≠ [])
    (hok : ∀ p ∈ pages, ∀ t ∈ parseFilters kwargs,
      ∃ b, applyOp t.2.1 p t.1 t.2.2 = Except.ok b) :
    ∃ out, PageList.filter pages false kwargs = Except.ok out ∧
      out = pages.filter (fun p => (parseFilters kwargs).any (effMatch false p)) ∧
      (∀ p, p ∈ out ↔
        p ∈ pages ∧ (parseFilters kwargs).any (effMatch false p) = true) ∧
      out.Sublist pages ∧
      (∀ p ∈ out, out.count p = 1) := by
  refine ⟨pages.filter (fun p => (parseFilters kwargs).any (effMatch false p)),
    ?_, rfl, ?_, List.filter_sublist _, ?_⟩
  · unfold PageList.filter
    simpa using filterOuter_eq false (parseFilters kwargs) pages [] hnd hok
      (by simp)
  · intro p
    simp [List.mem_filter]
  · intro p hp
    exact List.count_eq_one_of_mem (hnd.filter _) hp

/-- C2: `negate=True` inverts each predicate's result before the OR
combination; for a single `field__exact=v` predicate the negated filter is
exactly the complement, within the input list, of the positive filter. -/
theorem C2_filter_negate (pages : List QPage) (k : String) (v : Val)
    (hnd : pages.Nodup)
    (hp : parseFilters [(k ++ "__exact", v)] = [(k, "exact", v)]) :
    (∀ (p : QPage) (t : String × String × Val) (b : Bool),
        applyOp t.2.1 p t.1 t.2.2 = Except.ok b →
        effMatch true p t = !b ∧ effMatch false p t = b) ∧
    ∃ pos neg, PageList.filter pages false [(k ++ "__exact", v)] = Except.ok pos ∧
      PageList.filter pages true [(k ++ "__exact", v)] = Except.ok neg ∧
      pos = pages.filter (fun p => pyEqV (qgetattr p k) v) ∧
      neg = pages.filter (fun p => !(pyEqV (qgetattr p k) v)) ∧
      (∀ p, p ∈ neg ↔ p ∈ pages ∧ p ∉ pos) := by
  constructor
  · intro p t b hb
    simp [effMatch, hb]
  · have hok : ∀ (neg : Bool), ∀ p ∈ pages, ∀ t ∈ [(k, "exact", v)],
        ∃ b, applyOp t.2.1 p t.1 t.2.2 = Except.ok b := by
      intro _ p _ t ht
      rw [List.mem_singleton] at ht
      subst ht
      exact ⟨pyEqV (qgetattr p k) v, rfl⟩
    have heq : ∀ (neg : Bool), PageList.filter pages neg [(k ++ "__exact", v)] =
        Except.ok (pages.filter (fun p => [(k, "exact", v)].any (effMatch neg p))) := by
      intro neg
      unfold PageList.filter
      rw [hp]
      simpa using filterOuter_eq neg [(k, "exact", v)] pages [] hnd (hok neg) (by simp)
    refine ⟨_, _, heq false, heq true, ?_, ?_, ?_⟩
    · apply List.filter_congr
      intro p _
      simp [effMatch, applyOp, filters.exact]
    · apply List.filter_congr
      intro p _
      simp [effMatch, applyOp, filters.exact]
    · intro p
      constructor
      · intro hin
        have hpp := (List.mem_filter.mp hin).1
        have hm := (List.mem_filter.mp hin).2
        refine ⟨hpp, fun hpos => ?_⟩
        have h2 := (List.mem_filter.mp hpos).2
        simp [effMatch, applyOp, filters.exact] at hm h2
        simp [hm] at h2
      · rintro ⟨hpp, hnin⟩
        refine List.mem_filter.mpr ⟨hpp, ?_⟩
        by_cases hq : [(k, "exact", v)].any (effMatch false p) = true
        · exact absurd (List.mem_filter.mpr ⟨hpp, hq⟩) hnin
        · simp [effMatch, applyOp, filters.exact] at hq ⊢
          exact hq

/-! ## C5: the `_load_file` cache-hit property -/

/-- C5: a cached entry with matching modification time is returned without
reading the content and without touching the cache; otherwise the content
is read, parsed, and the entry for the filename is replaced by the new
`(page, mtime)` pair.  Two consecutive loads with unchanged modification
time read the content at most once and return the same page. -/
theorem C5_load_file_cache (cache : FileCache) (path filename content : String)
    (mtime : Nat) :
    (∀ pg, lookupA cache filename = some (pg, mtime) →
      FlatPages._load_file cache path filename content mtime = (pg, cache, false)) ∧
    ((lookupA cache filename = Option.none ∨
      (∃ pg mt, lookupA cache filename = some (pg, mt) ∧ mt ≠ mtime)) →
      FlatPages._load_file cache path filename content mtime =
        (FlatPages._parse content path,
         insertA cache filename (FlatPages._parse content path, mtime), true)) ∧
    (let r1 := FlatPages._load_file cache path filename content mtime
     let r2 := FlatPages._load_file r1.2.1 path filename content mtime
     r2.1 = r1.1 ∧ r2.2.1 = r1.2.1 ∧ r2.2.2 = false ∧
       ((if r1.2.2 then 1 else 0) + (if r2.2.2 then 1 else 0) : Nat) ≤ 1) := by
  refine ⟨?_, ?_, ?_⟩
  · intro pg h
    simp [FlatPages._load_file, h]
  · intro h
    rcases h with h | ⟨pg, mt, h, hne⟩
    · simp [FlatPages._load_file, h]
    · simp [FlatPages._load_file, h, hne]
  · cases hc : lookupA cache filename with
    | none =>
        have hstep :
            FlatPages._load_file cache path filename content mtime =
              (FlatPages._parse content path,
               insertA cache filename (FlatPages._parse content path, mtime), true) := by
          simp [FlatPages._load_file, hc]
        have h2 : lookupA (insertA cache filename (FlatPages._parse content path, mtime))
            filename = some (FlatPages._parse content path, mtime) :=
          lookupA_insertA_self _ _ _
        simp only [hstep]
        simp [FlatPages._load_file, h2]
    | some pr =>
        obtain ⟨pg, mt⟩ := pr
        by_cases hmt : mt = mtime
        · subst hmt
          have hstep : FlatPages._load_file cache path filename content mt =
              (pg, cache, false) := by
            simp [FlatPages._load_file, hc]
          simp only [hstep]
          simp [hstep]
        · have hstep :
              FlatPages._load_file cache path filename content mtime =
                (FlatPages._parse content path,
                 insertA cache filename (FlatPages._parse content path, mtime), true) := by
            simp [FlatPages._load_file, hc, hmt]
          have h2 : lookupA (insertA cache filename (FlatPages._parse content path, mtime))
              filename = some (FlatPages._parse content path, mtime) :=
            lookupA_insertA_self _ _ _
          simp only [hstep]
          simp [FlatPages._load_file, h2]

/-- Witness for C5 at a concrete cache and file. -/
theorem C5_load_file_cache_witness :
    FlatPages._load_file [("pages/a.html", (⟨"a", "t: 1", "B"⟩, 7))]
        "a" "pages/a.html" "t: 1\n\nB" 7 =
      (⟨"a", "t: 1", "B"⟩, [("pages/a.html", (⟨"a", "t: 1", "B"⟩, 7))], false) :=
  (C5_load_file_cache [("pages/a.html", (⟨"a", "t: 1", "B"⟩, 7))]
      "a" "pages/a.html" "t: 1\n\nB" 7).1 ⟨"a", "t: 1", "B"⟩ (by decide)

/-! ## Lemmas about the `_pages` walk -/

theorem pagesFold_reads_mono (ext root : String) (fs : FileSystem)
    (acc : PagesMap × FileCache × List String) (fn : String)
    (h : fn ∈ (fs.foldl (pagesStep ext root) acc).2.2) :
    fn ∈ acc.2.2 ∨ fn ∈ fs.map (fullName root) := by
  induction fs generalizing acc with
  | nil => exact Or.inl h
  | cons g rest ih =>
      rw [List.foldl_cons] at h
      rcases ih (pagesStep ext root acc g) h with hh | hh
      · simp only [pagesStep] at hh
        cases hlp : logicalPath ext g with
        | none => rw [hlp] at hh; exact Or.inl hh
        | some path =>
            rw [hlp] at hh
            simp only [List.mem_append] at hh
            rcases hh with hh | hh
            · exact Or.inl hh
            · right
              rcases Bool.eq_false_or_eq_true
                  (FlatPages._load_file acc.2.1 path (fullName root g)
                    g.content g.mtime).2.2 with hr | hr
              · rw [hr] at hh
                simp at hh
                subst hh
                exact List.mem_map_of_mem _ (List.mem_cons_self _ _)
              · rw [hr] at hh
                simp at hh
      · exact Or.inr (List.mem_cons_of_mem _ hh)

theorem pagesFold_cache_notmem (ext root : String) (fs : FileSystem)
    (acc : PagesMap × FileCache × List String) (fn : String)
    (h : fn ∉ fs.map (fullName root)) :
    lookupA (fs.foldl (pagesStep ext root) acc).2.1 fn = lookupA acc.2.1 fn := by
  induction fs generalizing acc with
  | nil => rfl
  | cons g rest ih =>
      have hg : fullName root g ≠ fn := by
        intro hh
        exact h (hh ▸ List.mem_map_of_mem _ (List.mem_cons_self _ _))
      have hrest : fn ∉ rest.map (fullName root) := by
        intro hh
        rcases List.mem_map.mp hh with ⟨x, hx, hfx⟩
        exact h (hfx ▸ List.mem_map_of_mem _ (List.mem_cons_of_mem _ hx))
      rw [List.foldl_cons, ih _ hrest]
      simp only [pagesStep]
      cases hlp : logicalPath ext g with
      | none => rfl
      | some path =>
          simp only []
          cases hcl : lookupA acc.2.1 (fullName root g) with
          | none =>
              simp [FlatPages._load_file, hcl, lookupA_insertA_ne _ _ _ _ (fun hh => hg hh.symm)]
          | some pr =>
              obtain ⟨pg, mt⟩ := pr
              by_cases hmt : mt = g.mtime
              · simp [FlatPages._load_file, hcl, hmt]
              · simp [FlatPages._load_file, hcl, hmt,
                  lookupA_insertA_ne _ _ _ _ (fun hh => hg hh.symm)]

theorem pagesFold_dom (ext root : String) (fs : FileSystem)
    (acc : PagesMap × FileCache × List String) (p : String) :
    (lookupA (fs.foldl (pagesStep ext root) acc).1 p).isSome ↔
      (lookupA acc.1 p).isSome ∨ p ∈ fs.filterMap (logicalPath ext) := by
  induction fs generalizing acc with
  | nil => simp
  | cons g rest ih =>
      rw [List.foldl_cons, ih]
      simp only [pagesStep]
      cases hlp : logicalPath ext g with
      | none => simp [List.filterMap_cons, hlp]
      | some path =>
          simp only [List.filterMap_cons, hlp, List.mem_cons]
          by_cases hp : p = path
          · subst hp
            simp [lookupA_insertA_self]
          · rw [lookupA_insertA_ne _ _ _ _ hp]
            constructor
            · rintro (h | h)
              · exact Or.inl h
              · exact Or.inr (Or.inr h)
            · rintro (h | h | h)
              · exact Or.inl h
              · exact absurd h hp
              · exact Or.inr h

theorem pagesFold_reuse (ext root : String) (fs : FileSystem)
    (acc : PagesMap × FileCache × List String) (f : FSFile) (pg : Page)
    (hmem : f ∈ fs) (hnd : (fs.map (fullName root)).Nodup)
    (hcache : lookupA acc.2.1 (fullName root f) = some (pg, f.mtime))
    (hreads : fullName root f ∉ acc.2.2) :
    fullName root f ∉ (fs.foldl (pagesStep ext root) acc).2.2 ∧
      lookupA (fs.foldl (pagesStep ext root) acc).2.1 (fullName root f) =
        some (pg, f.mtime) := by
  induction fs generalizing acc with
  | nil => cases hmem
  | cons g rest ih =>
      have hndrest : (rest.map (fullName root)).Nodup := (List.nodup_cons.mp (by
        simpa using hnd)).2
      have hgrest : fullName root g ∉ rest.map (fullName root) := (List.nodup_cons.mp (by
        simpa using hnd)).1
      rw [List.foldl_cons]
      rcases List.mem_cons.mp hmem with hf | hf
      · subst hf
        -- the step for `f` itself: matching cache entry means a hit (or a skip)
        have hstep : (pagesStep ext root acc f).2.1 = acc.2.1 ∧
            (pagesStep ext root acc f).2.2 = acc.2.2 := by
          simp only [pagesStep]
          cases hlp : logicalPath ext f with
          | none => exact ⟨rfl, rfl⟩
          | some path =>
              simp only [FlatPages._load_file, hcache]
              simp
        have hnotin : fullName root f ∉ rest.map (fullName root) := hgrest
        constructor
        · intro hin
          rcases pagesFold_reads_mono ext root rest _ _ hin with hh | hh
          · rw [hstep.2] at hh
            exact hreads hh
          · exact hnotin hh
        · rw [pagesFold_cache_notmem ext root rest _ _ hnotin, hstep.1]
          exact hcache
      · have hfn_ne : fullName root g ≠ fullName root f := by
          intro hh
          exact hgrest (hh ▸ List.mem_map_of_mem _ hf)
        have hcache' : lookupA (pagesStep ext root acc g).2.1 (fullName root f) =
            some (pg, f.mtime) := by
          simp only [pagesStep]
          cases hlp : logicalPath ext g with
          | none => exact hcache
          | some path =>
              simp only []
              cases hcl : lookupA acc.2.1 (fullName root g) with
              | none =>
                  simp [FlatPages._load_file, hcl,
                    lookupA_insertA_ne _ _ _ _ (fun hh => hfn_ne hh.symm), hcache]
              | some pr =>
                  obtain ⟨pg', mt'⟩ := pr
                  by_cases hmt : mt' = g.mtime
                  · simp [FlatPages._load_file, hcl, hmt, hcache]
                  · simp [FlatPages._load_file, hcl, hmt,
                      lookupA_insertA_ne _ _ _ _ (fun hh => hfn_ne hh.symm), hcache]
        have hreads' : fullName root f ∉ (pagesStep ext root acc g).2.2 := by
          simp only [pagesStep]
          cases hlp : logicalPath ext g with
          | none => exact hreads
          | some path =>
              simp only [List.mem_append]
              rintro (hh | hh)
              · exact hreads hh
              · rcases Bool.eq_false_or_eq_true
                    (FlatPages._load_file acc.2.1 path (fullName root g)
                      g.content g.mtime).2.2 with hr | hr
                · rw [hr] at hh
                  simp at hh
                  exact hfn_ne hh.symm
                · rw [hr] at hh
                  simp at hh
        exact ih _ hf hndrest hcache' hreads'

/-- C6: `reload` discards only the built mapping, not the file cache; the
next access walks the current filesystem, so its domain is exactly the
logical paths of the files now present (added files appear, removed ones
do not), and a file whose cached entry still matches its modification time
is not re-read, its cache entry surviving unchanged. -/
theorem C6_reload_frame (ext root : String) (fs : FileSystem) (s : FlatPagesState)
    (hnd : (fs.map (fullName root)).Nodup) :
    (FlatPages.reload s)._file_cache = s._file_cache ∧
    (FlatPages.reload s)._pages = Option.none ∧
    (∀ p, (lookupA (FlatPages.getPages ext root fs (FlatPages.reload s)).1 p).isSome ↔
        p ∈ fs.filterMap (logicalPath ext)) ∧
    (∀ f ∈ fs, ∀ pg,
        lookupA s._file_cache (fullName root f) = some (pg, f.mtime) →
        fullName root f ∉ (FlatPages.getPages ext root fs (FlatPages.reload s)).2.2 ∧
        lookupA (FlatPages.getPages ext root fs
            (FlatPages.reload s)).2.1._file_cache (fullName root f) =
          some (pg, f.mtime)) := by
  have hacc : FlatPages.getPages ext root fs (FlatPages.reload s) =
      ((FlatPages._pages ext root fs s._file_cache).1,
       { _pages := some (FlatPages._pages ext root fs s._file_cache).1,
         _file_cache := (FlatPages._pages ext root fs s._file_cache).2.1 },
       (FlatPages._pages ext root fs s._file_cache).2.2) := rfl
  refine ⟨rfl, rfl, ?_, ?_⟩
  · intro p
    rw [hacc]
    have := pagesFold_dom ext root fs ([], s._file_cache, []) p
    simpa [FlatPages._pages, lookupA] using this
  · intro f hf pg hc
    have := pagesFold_reuse ext root fs ([], s._file_cache, []) f pg hf hnd hc
      (by simp)
    rw [hacc]
    exact this

/-- Witness for C6: a one-file filesystem whose cache entry matches; the
stale built mapping is discarded, the fresh walk finds the current file and
does not re-read it. -/
theorem C6_reload_frame_witness :
    (FlatPages.reload ⟨some [("stale", ⟨"stale", "", ""⟩)],
        [("pages/a.html", (FlatPages._parse "x: 1\n\nB" "a", 3))]⟩)._file_cache =
      [("pages/a.html", (FlatPages._parse "x: 1\n\nB" "a", 3))] ∧
    (lookupA (FlatPages.getPages ".html" "pages" [⟨[], "a.html", "x: 1\n\nB", 3⟩]
        (FlatPages.reload ⟨some [("stale", ⟨"stale", "", ""⟩)],
          [("pages/a.html", (FlatPages._parse "x: 1\n\nB" "a", 3))]⟩)).1 "a").isSome ∧
    ¬ (lookupA (FlatPages.getPages ".html" "pages" [⟨[], "a.html", "x: 1\n\nB", 3⟩]
        (FlatPages.reload ⟨some [("stale", ⟨"stale", "", ""⟩)],
          [("pages/a.html", (FlatPages._parse "x: 1\n\nB" "a", 3))]⟩)).1 "stale").isSome ∧
    "pages/a.html" ∉ (FlatPages.getPages ".html" "pages" [⟨[], "a.html", "x: 1\n\nB", 3⟩]
        (FlatPages.reload ⟨some [("stale", ⟨"stale", "", ""⟩)],
          [("pages/a.html", (FlatPages._parse "x: 1\n\nB" "a", 3))]⟩)).2.2 := by
  have h := C6_reload_frame ".html" "pages" [⟨[], "a.html", "x: 1\n\nB", 3⟩]
    ⟨some [("stale", ⟨"stale", "", ""⟩)],
      [("pages/a.html", (FlatPages._parse "x: 1\n\nB" "a", 3))]⟩ (by decide)
  refine ⟨h.1, ?_, ?_, ?_⟩
  · exact (h.2.2.1 "a").mpr (by decide)
  · intro hs
    exact absurd ((h.2.2.1 "stale").mp hs) (by decide)
  · exact (h.2.2.2 ⟨[], "a.html", "x: 1\n\nB", 3⟩ (by decide)
      (FlatPages._parse "x: 1\n\nB" "a") (by decide)).1

/-! ## C3 and C4: metadata decoding errors -/

/-- C3 (amended): the build never consults the metadata decoder — every
discovered file, bad metadata or not, ends up in the built collection; the
metadata type error surfaces only when the page's `meta` property is first
accessed. -/
theorem C3_build_defers_meta_errors (ext root : String) (fs : FileSystem)
    (cache : FileCache) (f : FSFile) (p : String)
    (hf : f ∈ fs) (hp : logicalPath ext f = some p) :
    (∃ pg, lookupA (FlatPages._pages ext root fs cache).1 p = some pg) ∧
    (∀ (pg : Page) (decode : String → Yaml),
        (decode pg.meta_yaml).truthy = true →
        (∀ kvs, decode pg.meta_yaml ≠ Yaml.map kvs) →
        Page.meta decode pg =
          Except.error (metaErrMsg pg.path (decode pg.meta_yaml).typeName)) := by
  constructor
  · have hdom := pagesFold_dom ext root fs ([], cache, []) p
    have hm : p ∈ fs.filterMap (logicalPath ext) :=
      List.mem_filterMap.mpr ⟨f, hf, hp⟩
    have : (lookupA (FlatPages._pages ext root fs cache).1 p).isSome := by
      unfold FlatPages._pages
      rw [hdom]
      exact Or.inr hm
    exact Option.isSome_iff_exists.mp this
  · intro pg decode htr hnm
    cases hd : decode pg.meta_yaml with
    | scalar b =>
        have htr' : (Yaml.scalar b).truthy = true := hd ▸ htr
        simp [Page.meta, hd, htr']
    | seq l =>
        have htr' : (Yaml.seq l).truthy = true := hd ▸ htr
        simp [Page.meta, hd, htr']
    | map kvs => exact absurd hd (hnm kvs)

/-- Witness for C3 (amended) at a one-file filesystem whose metadata block
decodes to a list. -/
theorem C3_build_defers_meta_errors_witness :
    (∃ pg, lookupA (FlatPages._pages ".html" "pages"
        [⟨[], "foo.html", "- 1\n- 2\n\nbody", 5⟩] []).1 "foo" = some pg) ∧
    Page.meta
        (fun s => if s = "- 1\n- 2"
          then Yaml.seq [Val.base (BVal.int 1), Val.base (BVal.int 2)]
          else Yaml.scalar BVal.none)
        ⟨"foo", "- 1\n- 2", "body"⟩ =
      Except.error "Excpected a dict in metadata for 'foo', got list" := by
  have h := C3_build_defers_meta_errors ".html" "pages"
    [⟨[], "foo.html", "- 1\n- 2\n\nbody", 5⟩] [] ⟨[], "foo.html", "- 1\n- 2\n\nbody", 5⟩
    "foo" (by decide) (by decide)
  refine ⟨h.1, ?_⟩
  have h2 := h.2 ⟨"foo", "- 1\n- 2", "body"⟩
    (fun s => if s = "- 1\n- 2"
      then Yaml.seq [Val.base (BVal.int 1), Val.base (BVal.int 2)]
      else Yaml.scalar BVal.none)
    (by decide) (fun kvs h => by simp at h)
  simpa using h2

/-- C3 counterexample: the claim says the build itself raises the metadata
type error and produces no collection; in fact the build completes and the
bad file is in the built mapping (the error only exists at `meta`
access). -/
theorem C3_counterexample :
    (FlatPages._pages ".html" "pages" [⟨[], "foo.html", "- 1\n- 2\n\nbody", 5⟩] []).1 =
      [("foo", ⟨"foo", "- 1\n- 2", "body"⟩)] ∧
    Page.meta
        (fun s => if s = "- 1\n- 2"
          then Yaml.seq [Val.base (BVal.int 1), Val.base (BVal.int 2)]
          else Yaml.scalar BVal.none)
        ⟨"foo", "- 1\n- 2", "body"⟩ =
      Except.error "Excpected a dict in metadata for 'foo', got list" := by
  constructor
  · decide
  · decide

/-- C4 (amended): metadata decoding yields `{}` for any falsy decoded
document (including a present but empty sequence), the mapping itself for a
truthy mapping, and otherwise the `ValueError` naming the page's path and
the decoded type. -/
theorem C4_meta_mapping (p : Page) (decode : String → Yaml) :
    ((decode p.meta_yaml).truthy = false → Page.meta decode p = Except.ok []) ∧
    (∀ kvs, decode p.meta_yaml = Yaml.map kvs → (decode p.meta_yaml).truthy = true →
        Page.meta decode p = Except.ok kvs) ∧
    ((decode p.meta_yaml).truthy = true →
      (∀ kvs, decode p.meta_yaml ≠ Yaml.map kvs) →
      Page.meta decode p =
        Except.error (metaErrMsg p.path (decode p.meta_yaml).typeName)) := by
  refine ⟨?_, ?_, ?_⟩
  · intro hf
    simp [Page.meta, hf]
  · intro kvs hmap htr
    have htr' : (Yaml.map kvs).truthy = true := hmap ▸ htr
    simp [Page.meta, hmap, htr']
  · intro htr hnm
    cases hd : decode p.meta_yaml with
    | scalar b =>
        have htr' : (Yaml.scalar b).truthy = true := hd ▸ htr
        simp [Page.meta, hd, htr']
    | seq l =>
        have htr' : (Yaml.seq l).truthy = true := hd ▸ htr
        simp [Page.meta, hd, htr']
    | map kvs => exact absurd hd (hnm kvs)

/-- Witness for C4 (amended): an empty metadata block decoding to `None`
yields `{}`; a mapping block yields the mapping; a list block yields the
error naming path and type. -/
theorem C4_meta_mapping_witness :
    Page.meta (fun _ => Yaml.scalar BVal.none) ⟨"p", "", ""⟩ = Except.ok [] ∧
    Page.meta (fun _ => Yaml.map [("title", Val.base (BVal.str "Hello"))])
        ⟨"p", "title: Hello", ""⟩ = Except.ok [("title", Val.base (BVal.str "Hello"))] ∧
    Page.meta (fun _ => Yaml.seq [Val.base (BVal.int 1), Val.base (BVal.int 2)])
        ⟨"pg", "- 1\n- 2", ""⟩ =
      Except.error "Excpected a dict in metadata for 'pg', got list" := by
  refine ⟨?_, ?_, ?_⟩
  · exact (C4_meta_mapping ⟨"p", "", ""⟩ (fun _ => Yaml.scalar BVal.none)).1 (by decide)
  · exact (C4_meta_mapping ⟨"p", "title: Hello", ""⟩
      (fun _ => Yaml.map [("title", Val.base (BVal.str "Hello"))])).2.1
      [("title", Val.base (BVal.str "Hello"))] (by decide) (by decide)
  · have h := (C4_meta_mapping ⟨"pg", "- 1\n- 2", ""⟩
      (fun _ => Yaml.seq [Val.base (BVal.int 1), Val.base (BVal.int 2)])).2.2
      (by decide) (fun kvs h => by simp at h)
    simpa using h

/-- C4 counterexample: a metadata block decoding to a present, non-mapping
value — the empty list — yields `{}` and no error, contradicting the claim
that every present non-mapping decoded value fails with a type error. -/
theorem C4_counterexample :
    (fun s => if s = "[]" then Yaml.seq [] else Yaml.scalar BVal.none) "[]" =
      Yaml.seq [] ∧
    Page.meta (fun s => if s = "[]" then Yaml.seq [] else Yaml.scalar BVal.none)
        ⟨"p", "[]", ""⟩ = Except.ok [] ∧
    ∀ e, Page.meta (fun s => if s = "[]" then Yaml.seq [] else Yaml.scalar BVal.none)
        ⟨"p", "[]", ""⟩ ≠ Except.error e := by
  have h2 : Page.meta (fun s => if s = "[]" then Yaml.seq [] else Yaml.scalar BVal.none)
      ⟨"p", "[]", ""⟩ = Except.ok [] := by decide
  refine ⟨by decide, h2, ?_⟩
  intro e h
  rw [h2] at h
  cases h

/-! ## C8: `_parse` splits on the first blank line -/

theorem takeWhile_middle {α : Type} (p : α → Bool) (l₁ : List α) (b : α) (l₂ : List α)
    (h1 : ∀ l ∈ l₁, p l = true) (hb : p b = false) :
    (l₁ ++ b :: l₂).takeWhile p = l₁ ∧ (l₁ ++ b :: l₂).dropWhile p = b :: l₂ := by
  induction l₁ with
  | nil => simp [List.takeWhile_cons, List.dropWhile_cons, hb]
  | cons a as ih =>
      have ha : p a = true := h1 a (List.mem_cons_self _ _)
      have ih' := ih (fun l hl => h1 l (List.mem_cons_of_mem _ hl))
      simp [List.takeWhile_cons, List.dropWhile_cons, ha, ih'.1, ih'.2]

/-- C8: `_parse` splits the text at its first blank line — every line
before it is the metadata block, every line after it (the blank line
excluded) the body; a text with no blank line is all metadata with an
empty body. -/
theorem C8_parse_first_blank (s path : String) :
    ((∀ l ∈ splitNl s.data, blankLine l = false) →
      FlatPages._parse s path = ⟨path, s, ""⟩) ∧
    (∀ l₁ b l₂, splitNl s.data = l₁ ++ b :: l₂ →
      (∀ l ∈ l₁, blankLine l = false) → blankLine b = true →
      FlatPages._parse s path =
        ⟨path, String.mk (joinNl l₁), String.mk (joinNl l₂)⟩) := by
  constructor
  · intro hall
    have htake : (splitNl s.data).takeWhile (fun l => !blankLine l) = splitNl s.data := by
      rw [List.takeWhile_eq_self_iff]
      intro l hl
      simp [hall l hl]
    have hdrop : (splitNl s.data).dropWhile (fun l => !blankLine l) = [] := by
      rw [List.dropWhile_eq_nil_iff]
      intro l hl
      simp [hall l hl]
    simp only [FlatPages._parse, htake, hdrop, joinNl_splitNl, List.drop_nil]
    rfl
  · intro l₁ b l₂ hsplit h1 hb
    have hmid := takeWhile_middle (fun l => !blankLine l) l₁ b l₂
      (fun l hl => by simp [h1 l hl]) (by simp [hb])
    simp only [FlatPages._parse, hsplit, hmid.1, hmid.2, List.drop_succ_cons,
      List.drop_zero]

/-- Witness for C8: a text with a blank line splits there; a text without
one is all metadata. -/
theorem C8_parse_first_blank_witness :
    FlatPages._parse "t: 1\n\nBody" "p" = ⟨"p", "t: 1", "Body"⟩ ∧
    FlatPages._parse "no blank\nanywhere" "q" = ⟨"q", "no blank\nanywhere", ""⟩ := by
  constructor
  · have h := (C8_parse_first_blank "t: 1\n\nBody" "p").2
      ["t: 1".data] "".data ["Body".data] (by decide) (by decide) (by decide)
    exact h.trans (by decide)
  · exact (C8_parse_first_blank "no blank\nanywhere" "q").1 (by decide)

/-- Witness for C1 at two concrete pages and one `exact` predicate. -/
theorem C1_filter_or_witness :
    PageList.filter
        [⟨"p1", [("title", Val.base (BVal.str "Hello"))]⟩,
         ⟨"p2", [("title", Val.base (BVal.str "World"))]⟩] false
        [("title", Val.base (BVal.str "Hello"))] =
      Except.ok [⟨"p1", [("title", Val.base (BVal.str "Hello"))]⟩] := by
  have hpf : parseFilters [("title", Val.base (BVal.str "Hello"))] =
      [("title", "exact", Val.base (BVal.str "Hello"))] := by decide
  obtain ⟨out, h1, h2, -, -, -⟩ := C1_filter_or
    [⟨"p1", [("title", Val.base (BVal.str "Hello"))]⟩,
     ⟨"p2", [("title", Val.base (BVal.str "World"))]⟩]
    [("title", Val.base (BVal.str "Hello"))]
    (by decide) (by decide)
    (by
      intro p hp t ht
      rw [hpf, List.mem_singleton] at ht
      subst ht
      exact ⟨_, rfl⟩)
  rw [h1, h2]
  decide

/-- Witness for C2 at two concrete pages: the negated `exact` filter is
the complement of the positive one. -/
theorem C2_filter_negate_witness :
    PageList.filter
        [⟨"p1", [("title", Val.base (BVal.str "Hello"))]⟩,
         ⟨"p2", [("title", Val.base (BVal.str "World"))]⟩] true
        [("title" ++ "__exact", Val.base (BVal.str "Hello"))] =
      Except.ok [⟨"p2", [("title", Val.base (BVal.str "World"))]⟩] ∧
    PageList.filter
        [⟨"p1", [("title", Val.base (BVal.str "Hello"))]⟩,
         ⟨"p2", [("title", Val.base (BVal.str "World"))]⟩] false
        [("title" ++ "__exact", Val.base (BVal.str "Hello"))] =
      Except.ok [⟨"p1", [("title", Val.base (BVal.str "Hello"))]⟩] := by
  obtain ⟨-, pos, neg, hpos, hneg, hpe, hne2, -⟩ := C2_filter_negate
    [⟨"p1", [("title", Val.base (BVal.str "Hello"))]⟩,
     ⟨"p2", [("title", Val.base (BVal.str "World"))]⟩]
    "title" (Val.base (BVal.str "Hello")) (by decide) (by decide)
  constructor
  · rw [hneg, hne2]
    decide
  · rw [hpos, hpe]
    decide

/-! ## Lemmas about the stable sort used by `order_by` -/

theorem pyInsert_perm {α : Type} (lt : α → α → Bool) (x : α) (l : List α) :
    List.Perm (pyInsert lt x l) (x :: l) := by
  induction l with
  | nil => rfl
  | cons y ys ih =>
      by_cases h : lt y x
      · simp only [pyInsert, if_pos h]
        exact (ih.cons y).trans (List.Perm.swap x y ys)
      · simp only [pyInsert, if_neg h]
        exact List.Perm.refl _

theorem pySort_perm {α : Type} (lt : α → α → Bool) (l : List α) :
    List.Perm (pySort lt l) l := by
  induction l with
  | nil => rfl
  | cons x xs ih => exact (pyInsert_perm lt x (pySort lt xs)).trans (ih.cons x)

theorem pyInsert_pairwise {α : Type} (lt : α → α → Bool)
    (hasymm : ∀ a b, lt a b = true → lt b a = false)
    (htrans : ∀ a b c, lt b a = false → lt c b = false → lt c a = false)
    (x : α) (l : List α) (h : l.Pairwise (fun a b => lt b a = false)) :
    (pyInsert lt x l).Pairwise (fun a b => lt b a = false) := by
  induction l with
  | nil => simp [pyInsert]
  | cons y ys ih =>
      rw [List.pairwise_cons] at h
      by_cases hlt : lt y x
      · simp only [pyInsert, if_pos hlt]
        rw [List.pairwise_cons]
        constructor
        · intro z hz
          rcases List.mem_cons.mp ((pyInsert_perm lt x ys).mem_iff.mp hz) with hz | hz
          · rw [hz]
            exact hasymm y x hlt
          · exact h.1 z hz
        · exact ih h.2
      · simp only [pyInsert, if_neg hlt]
        rw [List.pairwise_cons]
        constructor
        · intro z hz
          rcases List.mem_cons.mp hz with hz | hz
          · subst hz
            exact Bool.not_eq_true _ ▸ hlt
          · exact htrans x y z (Bool.not_eq_true _ ▸ hlt) (h.1 z hz)
        · rw [List.pairwise_cons]
          exact ⟨h.1, h.2⟩

theorem pySort_pairwise {α : Type} (lt : α → α → Bool)
    (hasymm : ∀ a b, lt a b = true → lt b a = false)
    (htrans : ∀ a b c, lt b a = false → lt c b = false → lt c a = false)
    (l : List α) :
    (pySort lt l).Pairwise (fun a b => lt b a = false) := by
  induction l with
  | nil => simp [pySort]
  | cons x xs ih => exact pyInsert_pairwise lt hasymm htrans x _ ih

theorem pyInsert_congr {α : Type} (lt₁ lt₂ : α → α → Bool) (x : α) (l : List α)
    (h : ∀ b ∈ l, lt₁ b x = lt₂ b x) :
    pyInsert lt₁ x l = pyInsert lt₂ x l := by
  induction l with
  | nil => rfl
  | cons y ys ih =>
      simp only [pyInsert, h y (List.mem_cons_self _ _)]
      rw [ih (fun b hb => h b (List.mem_cons_of_mem _ hb))]

theorem pySort_congr {α : Type} (lt₁ lt₂ : α → α → Bool) (l : List α)
    (h : ∀ a ∈ l, ∀ b ∈ l, lt₁ a b = lt₂ a b) :
    pySort lt₁ l = pySort lt₂ l := by
  induction l with
  | nil => rfl
  | cons x xs ih =>
      simp only [pySort]
      rw [ih (fun a ha b hb => h a (List.mem_cons_of_mem _ ha) b (List.mem_cons_of_mem _ hb))]
      apply pyInsert_congr
      intro b hb
      have hbx : b ∈ xs := (pySort_perm lt₂ xs).mem_iff.mp hb
      exact h b (List.mem_cons_of_mem _ hbx) x (List.mem_cons_self _ _)

/-- Two sorted permutations of one another agree when the order is
antisymmetric on their members. -/
theorem sorted_perm_unique {α : Type} (R : α → α → Prop) :
    ∀ l₁ l₂ : List α, List.Perm l₁ l₂ → l₁.Pairwise R → l₂.Pairwise R →
      (∀ a b, a ∈ l₁ → b ∈ l₁ → R a b → R b a → a = b) → l₁ = l₂ := by
  intro l₁
  induction l₁ with
  | nil =>
      intro l₂ hp _ _ _
      exact (List.Perm.nil_eq hp).symm ▸ rfl
  | cons x t₁ ih =>
      intro l₂ hp pw₁ pw₂ hanti
      cases l₂ with
      | nil => exact absurd hp.symm (by simp)
      | cons y t₂ =>
          by_cases hxy : x = y
          · subst hxy
            rw [List.pairwise_cons] at pw₁ pw₂
            rw [ih t₂ (hp.cons_inv) pw₁.2 pw₂.2
              (fun a b ha hb => hanti a b (List.mem_cons_of_mem _ ha)
                (List.mem_cons_of_mem _ hb))]
          · exfalso
            have hx2 : x ∈ y :: t₂ := hp.subset (List.mem_cons_self _ _)
            have hy1 : y ∈ x :: t₁ := hp.symm.subset (List.mem_cons_self _ _)
            have hxt2 : x ∈ t₂ := by
              rcases List.mem_cons.mp hx2 with h | h
              · exact absurd h hxy
              · exact h
            have hyt1 : y ∈ t₁ := by
              rcases List.mem_cons.mp hy1 with h | h
              · exact absurd h.symm hxy
              · exact h
            rw [List.pairwise_cons] at pw₁ pw₂
            exact hxy (hanti x y (List.mem_cons_self _ _)
              (List.mem_cons_of_mem _ hyt1) (pw₁.1 y hyt1) (pw₂.1 x hxt2))

/-! ## C7: ordering by a field and by its descending marker -/

theorem dashKey_dash (k : String) : dashKey ("-" ++ k) = (true, k) := by
  cases k with
  | mk d => rfl

theorem pairwise_imp_of_mem {α : Type} {R S : α → α → Prop} {l : List α}
    (h : ∀ a b, a ∈ l → b ∈ l → R a b → S a b) (hp : l.Pairwise R) :
    l.Pairwise S := by
  induction l with
  | nil => exact List.Pairwise.nil
  | cons x xs ih =>
      rw [List.pairwise_cons] at hp ⊢
      refine ⟨fun b hb => h x b (List.mem_cons_self _ _)
        (List.mem_cons_of_mem _ hb) (hp.1 b hb), ?_⟩
      exact ih (fun a b ha hb => h a b (List.mem_cons_of_mem _ ha)
        (List.mem_cons_of_mem _ hb)) hp.2

/-- C7 (amended): `order_by(key)` and `order_by("-" + key)` are exact
reverses of one another when every page defines the field with pairwise
distinct date values (with equal values, Python's stable sort keeps the
input order in both directions, so the sequences are not reversed); pages
lacking the field sort with the `MINDATE` sentinel, hence (when present
field values are later than the sentinel) they come first ascending and
last descending. -/
theorem C7_order_by_reverse (pages : List QPage) (k : String)
    (hk : dashKey k = (false, k)) :
    ((∀ p ∈ pages, ∃ d, lookupA p.meta k = some (Val.base (BVal.date d))) →
     (∀ p q, p ∈ pages → q ∈ pages → dateKey k p = dateKey k q → p = q) →
     PageList.order_by pages ("-" ++ k) = (PageList.order_by pages k).reverse) ∧
    ((∀ p ∈ pages, ∀ v, lookupA p.meta k = some v →
        ∃ d, v = Val.base (BVal.date d) ∧ 0 < d) →
     (PageList.order_by pages k).Pairwise
        (fun a b => (lookupA a.meta k).isSome → (lookupA b.meta k).isSome) ∧
     (PageList.order_by pages ("-" ++ k)).Pairwise
        (fun a b => (lookupA b.meta k).isSome → (lookupA a.meta k).isSome)) := by
  have hasc : PageList.order_by pages k =
      pySort (fun a b => ltVal (getMetaKey k a) (getMetaKey k b)) pages := by
    simp [PageList.order_by, hk]
  have hdesc : PageList.order_by pages ("-" ++ k) =
      pySort (fun a b => ltVal (getMetaKey k b) (getMetaKey k a)) pages := by
    simp [PageList.order_by, dashKey_dash]
  have hA : ∀ a b : QPage, decide (dateKey k a < dateKey k b) = true →
      decide (dateKey k b < dateKey k a) = false := by
    intro a b h
    simp at h ⊢
    omega
  have hT : ∀ a b c : QPage, decide (dateKey k b < dateKey k a) = false →
      decide (dateKey k c < dateKey k b) = false →
      decide (dateKey k c < dateKey k a) = false := by
    intro a b c h1 h2
    simp at h1 h2 ⊢
    omega
  have hA' : ∀ a b : QPage, decide (dateKey k b < dateKey k a) = true →
      decide (dateKey k a < dateKey k b) = false := by
    intro a b h
    simp at h ⊢
    omega
  have hT' : ∀ a b c : QPage, decide (dateKey k a < dateKey k b) = false →
      decide (dateKey k b < dateKey k c) = false →
      decide (dateKey k a < dateKey k c) = false := by
    intro a b c h1 h2
    simp at h1 h2 ⊢
    omega
  -- sortedness of the two Nat-keyed sorts
  have hpwDgen : (pySort (fun a b => decide (dateKey k b < dateKey k a)) pages).Pairwise
      (fun a b => dateKey k b ≤ dateKey k a) := by
    have h := pySort_pairwise (fun a b : QPage => decide (dateKey k b < dateKey k a))
      hA' hT' pages
    exact h.imp (fun hab => Nat.le_of_not_lt (by simpa using hab))
  have hpwAgen : (pySort (fun a b => decide (dateKey k a < dateKey k b)) pages).Pairwise
      (fun a b => dateKey k a ≤ dateKey k b) := by
    have h := pySort_pairwise (fun a b : QPage => decide (dateKey k a < dateKey k b))
      hA hT pages
    exact h.imp (fun hab => Nat.le_of_not_lt (by simpa using hab))
  constructor
  · intro hall hinj
    have hg : ∀ p ∈ pages, getMetaKey k p = Val.base (BVal.date (dateKey k p)) := by
      intro p hp
      obtain ⟨d, hd⟩ := hall p hp
      simp [getMetaKey, dateKey, hd]
    have hascN : PageList.order_by pages k =
        pySort (fun a b => decide (dateKey k a < dateKey k b)) pages := by
      rw [hasc]
      apply pySort_congr
      intro a ha b hb
      rw [hg a ha, hg b hb]
      rfl
    have hdescN : PageList.order_by pages ("-" ++ k) =
        pySort (fun a b => decide (dateKey k b < dateKey k a)) pages := by
      rw [hdesc]
      apply pySort_congr
      intro a ha b hb
      rw [hg a ha, hg b hb]
      rfl
    -- both sides are permutations of `pages`, sorted descending, with keys
    -- injective on members: they are equal
    have hpermD : List.Perm
        (pySort (fun a b => decide (dateKey k b < dateKey k a)) pages) pages :=
      pySort_perm _ pages
    have hpermA : List.Perm
        ((pySort (fun a b => decide (dateKey k a < dateKey k b)) pages).reverse) pages :=
      ((pySort (fun a b => decide (dateKey k a < dateKey k b)) pages).reverse_perm).trans
        (pySort_perm _ pages)
    have hpwArev : ((pySort (fun a b => decide (dateKey k a < dateKey k b)) pages).reverse).Pairwise
        (fun a b => dateKey k b ≤ dateKey k a) :=
      List.pairwise_reverse.mpr hpwAgen
    rw [hascN, hdescN]
    exact sorted_perm_unique (fun a b => dateKey k b ≤ dateKey k a) _ _
      (hpermD.trans hpermA.symm) hpwDgen hpwArev
      (fun a b ha hb h1 h2 =>
        hinj a b (hpermD.subset ha) (hpermD.subset hb) (Nat.le_antisymm h2 h1))
  · intro hpos
    have hg : ∀ p ∈ pages, getMetaKey k p = Val.base (BVal.date (dateKey k p)) := by
      intro p hp
      cases hl : lookupA p.meta k with
      | none => simp [getMetaKey, dateKey, hl, MINDATE]
      | some v =>
          obtain ⟨d, hd, hdpos⟩ := hpos p hp v hl
          subst hd
          simp [getMetaKey, dateKey, hl]
    have hascN : PageList.order_by pages k =
        pySort (fun a b => decide (dateKey k a < dateKey k b)) pages := by
      rw [hasc]
      apply pySort_congr
      intro a ha b hb
      rw [hg a ha, hg b hb]
      rfl
    have hdescN : PageList.order_by pages ("-" ++ k) =
        pySort (fun a b => decide (dateKey k b < dateKey k a)) pages := by
      rw [hdesc]
      apply pySort_congr
      intro a ha b hb
      rw [hg a ha, hg b hb]
      rfl
    have hposKey : ∀ p ∈ pages, (lookupA p.meta k).isSome → 0 < dateKey k p := by
      intro p hp hs
      obtain ⟨v, hv⟩ := Option.isSome_iff_exists.mp hs
      obtain ⟨d, hd, hdpos⟩ := hpos p hp v hv
      subst hd
      simp [dateKey, hv]
      exact hdpos
    have hkeySome : ∀ p : QPage, 0 < dateKey k p → (lookupA p.meta k).isSome := by
      intro p hd
      cases hl : lookupA p.meta k with
      | none => simp [dateKey, hl] at hd
      | some v => rfl
    constructor
    · rw [hascN]
      refine pairwise_imp_of_mem ?_ hpwAgen
      intro a b ha hb hle hs
      have hmem : a ∈ pages := (pySort_perm _ pages).subset ha
      exact hkeySome b (Nat.lt_of_lt_of_le (hposKey a hmem hs) hle)
    · rw [hdescN]
      refine pairwise_imp_of_mem ?_ hpwDgen
      intro a b ha hb hle hs
      have hmem : b ∈ pages := (pySort_perm _ pages).subset hb
      exact hkeySome a (Nat.lt_of_lt_of_le (hposKey b hmem hs) hle)

/-- C7 counterexample: two pages with the same date.  Python's stable sort
keeps their input order under both `"date"` and `"-date"`, so the two
orderings are identical, not reversed. -/
theorem C7_counterexample :
    PageList.order_by
        [⟨"a", [("date", Val.base (BVal.date 3))]⟩,
         ⟨"b", [("date", Val.base (BVal.date 3))]⟩] "-date" ≠
      (PageList.order_by
        [⟨"a", [("date", Val.base (BVal.date 3))]⟩,
         ⟨"b", [("date", Val.base (BVal.date 3))]⟩] "date").reverse ∧
    PageList.order_by
        [⟨"a", [("date", Val.base (BVal.date 3))]⟩,
         ⟨"b", [("date", Val.base (BVal.date 3))]⟩] "-date" =
      PageList.order_by
        [⟨"a", [("date", Val.base (BVal.date 3))]⟩,
         ⟨"b", [("date", Val.base (BVal.date 3))]⟩] "date" := by
  constructor
  · decide
  · decide

/-- Witness for C7 (amended) at two pages with distinct dates. -/
theorem C7_order_by_reverse_witness :
    PageList.order_by
        [⟨"a", [("date", Val.base (BVal.date 2))]⟩,
         ⟨"b", [("date", Val.base (BVal.date 1))]⟩] ("-" ++ "date") =
      (PageList.order_by
        [⟨"a", [("date", Val.base (BVal.date 2))]⟩,
         ⟨"b", [("date", Val.base (BVal.date 1))]⟩] "date").reverse := by
  refine (C7_order_by_reverse
    [⟨"a", [("date", Val.base (BVal.date 2))]⟩,
     ⟨"b", [("date", Val.base (BVal.date 1))]⟩] "date" (by decide)).1 ?_ ?_
  · intro p hp
    simp only [List.mem_cons, List.not_mem_nil, or_false] at hp
    rcases hp with rfl | rfl
    · exact ⟨2, by decide⟩
    · exact ⟨1, by decide⟩
  · intro p q hp hq hf
    simp only [List.mem_cons, List.not_mem_nil, or_false] at hp hq
    rcases hp with rfl | rfl <;> rcases hq with rfl | rfl
    · rfl
    · exact absurd hf (by decide)
    · exact absurd hf (by decide)
    · rfl

/-! ## C9: `icontains` -/

theorem icontainsScan_strings (lv : String) (l : List String) :
    filters.icontainsScan lv (l.map BVal.str) =
      Except.ok (l.any (fun s => pyLower s == lv)) := by
  induction l with
  | nil => rfl
  | cons s rest ih =>
      simp only [List.map_cons, filters.icontainsScan, List.any_cons]
      by_cases h : pyLower s == lv
      · simp [h]
      · simp only [Bool.not_eq_true] at h
        simp [h, ih]

/-- C9 (amended): `icontains` with a string value is a case-insensitive
substring test on a string field, `False` on an absent field, and a
case-insensitive membership test on a field holding a list of strings; but
on a truthy non-string non-sequence field (e.g. a nonzero integer) it
raises `TypeError` — which `filter` converts to
`ValueError("Unknown operator 'icontains'")` — rather than being false. -/
theorem C9_icontains (p : QPage) (field v : String) :
    (∀ s, qgetattr p field = Val.base (BVal.str s) →
      filters.icontains p field (Val.base (BVal.str v)) =
        Except.ok (hasSubstr (pyLower s) (pyLower v))) ∧
    (qgetattr p field = Val.base BVal.none →
      filters.icontains p field (Val.base (BVal.str v)) = Except.ok false) ∧
    (∀ l : List String, qgetattr p field = Val.list (l.map BVal.str) →
      filters.icontains p field (Val.base (BVal.str v)) =
        Except.ok (l.any (fun s => pyLower s == pyLower v))) ∧
    (∀ n : Int, n ≠ 0 → qgetattr p field = Val.base (BVal.int n) →
      filters.icontains p field (Val.base (BVal.str v)) =
        Except.error PyErr.typeError) := by
  refine ⟨?_, ?_, ?_, ?_⟩
  · intro s h
    simp [filters.icontains, filters.icontainsBody, h]
  · intro h
    simp [filters.icontains, filters.icontainsBody, h, Val.truthy, BVal.truthy]
  · intro l h
    cases l with
    | nil =>
        simp [filters.icontains, filters.icontainsBody, h, Val.truthy]
    | cons s rest =>
        simp only [filters.icontains, filters.icontainsBody, h]
        rw [show (Val.list ((s :: rest).map BVal.str)).truthy = true by simp [Val.truthy]]
        simp only [Bool.not_true, Bool.false_eq_true, if_false]
        rw [icontainsScan_strings]
  · intro n hn h
    have ht : (Val.base (BVal.int n)).truthy = true := by
      simp [Val.truthy, BVal.truthy]
      exact hn
    simp [filters.icontains, filters.icontainsBody, h, ht]

/-- Witness for C9 (amended), covering the spec's three `icontains`
examples and the absent-field case. -/
theorem C9_icontains_witness :
    filters.icontains ⟨"pl", [("tags", Val.list [BVal.str "Alpha", BVal.str "Beta"])]⟩
        "tags" (Val.base (BVal.str "alpha")) = Except.ok true ∧
    filters.icontains ⟨"ps", [("t", Val.base (BVal.str "Alphabet"))]⟩
        "t" (Val.base (BVal.str "alpha")) = Except.ok true ∧
    filters.icontains ⟨"ps", [("t", Val.base (BVal.str "Alphabet"))]⟩
        "t" (Val.base (BVal.str "zzz")) = Except.ok false ∧
    filters.icontains ⟨"p0", []⟩ "absent" (Val.base (BVal.str "a")) =
      Except.ok false := by
  refine ⟨?_, ?_, ?_, ?_⟩
  · exact ((C9_icontains ⟨"pl", [("tags", Val.list [BVal.str "Alpha", BVal.str "Beta"])]⟩
      "tags" "alpha").2.2.1 ["Alpha", "Beta"] (by decide)).trans (by decide)
  · exact ((C9_icontains ⟨"ps", [("t", Val.base (BVal.str "Alphabet"))]⟩
      "t" "alpha").1 "Alphabet" (by decide)).trans (by decide)
  · exact ((C9_icontains ⟨"ps", [("t", Val.base (BVal.str "Alphabet"))]⟩
      "t" "zzz").1 "Alphabet" (by decide)).trans (by decide)
  · exact (C9_icontains ⟨"p0", []⟩ "absent" "a").2.1 (by decide)

/-- C9 counterexample: on a truthy non-string, non-sequence field value
(here the integer `5`), `icontains` raises `TypeError` — surfaced by
`filter` as a spurious unknown-operator `ValueError` — instead of
evaluating to false as the claim states. -/
theorem C9_counterexample :
    filters.icontains ⟨"pn", [("n", Val.base (BVal.int 5))]⟩ "n"
        (Val.base (BVal.str "a")) = Except.error PyErr.typeError ∧
    PageList.filter [⟨"pn", [("n", Val.base (BVal.int 5))]⟩] false
        [("n__icontains", Val.base (BVal.str "a"))] =
      Except.error "Unknown operator 'icontains'" := by
  constructor
  · decide
  · decide

end FlaskFlatPages
